import Mathlib

/-!
Verification of the streaming text pipeline of the hireal-zypher repository.

Strings are modelled as `List Char`.  The sentence buffer
(`utils/textFilter.ts`), the tool-name helpers (`utils/toolUtils.ts`), the
server stream orchestrator (`api/research.ts`) and the client stream consumer
(`ChatInterface.tsx`) are embedded as executable Lean functions, and the
claims of the spec about them are settled below.
-/

set_option linter.unusedVariables false

namespace Zypher

/-- Whitespace class of JavaScript regular expressions (`\s`), which is also
the set of characters removed by `String.prototype.trim`. -/
def jsWs (c : Char) : Bool :=
  c = ' ' || c = '\t' || c = '\n' || c = '\r' ||
  c.toNat = 11 || c.toNat = 12 ||
  c.toNat = 0xa0 || c.toNat = 0x1680 ||
  (0x2000 ≤ c.toNat && c.toNat ≤ 0x200a) ||
  c.toNat = 0x2028 || c.toNat = 0x2029 ||
  c.toNat = 0x202f || c.toNat = 0x205f ||
  c.toNat = 0x3000 || c.toNat = 0xfeff

/-- Remove trailing JavaScript whitespace. -/
def trimEnd (l : List Char) : List Char := (l.reverse.dropWhile jsWs).reverse

/-- JavaScript `String.prototype.trim`. -/
def jsTrim (l : List Char) : List Char := trimEnd (l.dropWhile jsWs)

/-- Does the list start with a whitespace character?  (Embeds a `\s` that
must match right after the current position.) -/
def wsHead : List Char → Bool
  | [] => false
  | c :: _ => jsWs c

/-- The alternative `#\x7b1,3\x7d\s` of the Markdown marker regex, matched at
the head of the list (one to three hash signs followed by whitespace). -/
def hashMarker : List Char → Bool
  | [] => false
  | c1 :: r1 =>
      c1 = '#' &&
      (wsHead r1 ||
        (match r1 with
         | [] => false
         | c2 :: r2 =>
             c2 = '#' &&
             (wsHead r2 ||
               (match r2 with
                | [] => false
                | c3 :: r3 => c3 = '#' && wsHead r3))))

/-- The alternative `\*\*` of the Markdown marker regex, at the head. -/
def starMarker : List Char → Bool
  | c1 :: c2 :: _ => c1 = '*' && c2 = '*'
  | _ => false

/-- The alternative `- ` (dash, space) of the Markdown marker regex, at the
head. -/
def dashMarker : List Char → Bool
  | c1 :: c2 :: _ => c1 = '-' && c2 = ' '
  | _ => false

/-- Does one of the three Markdown marker alternatives match at the head of
the list? -/
def markerHead (l : List Char) : Bool :=
  hashMarker l || starMarker l || dashMarker l

/-- Embedded `buffer.search(/#\x7b1,3\x7d\s|\*\*|- /)` of
`SentenceBuffer.processBuffer`: index of the first position at which a
Markdown marker matches, if any. -/
def markerSearch : List Char → Option Nat
  | [] => none
  | c :: cs => if markerHead (c :: cs) then some 0 else (markerSearch cs).map (· + 1)

/-- Embedded `isMarkdownStart` of `utils/textFilter.ts`: the trimmed text begins with
a heading, bold, or list marker. -/
def isMarkdownStart (l : List Char) : Bool := markerHead (jsTrim l)

/-- The apostrophe character, used in the transition pattern literals. -/
def apoChar : Char := Char.ofNat 39

/-- The letter sequence `i`, apostrophe, `l`, `l` (lower-cased "I will"
contraction used by many transition patterns). -/
def illTxt : List Char := 'i' :: apoChar :: 'l' :: 'l' :: []

/-- Embedded `TRANSITION_START_PATTERNS` of `utils/textFilter.ts`, each pattern
lower-cased (the regexes carry the `i` flag) and with the optional-comma
patterns (`First,? ...`, `Next,? ...`) expanded into their two literal
alternatives.  Each entry is matched as a prefix of the trimmed text. -/
def transitionStartPatterns : List (List Char) := [
  illTxt ++ (" help you research").data,
  illTxt ++ (" help you find").data,
  illTxt ++ (" search").data,
  illTxt ++ (" try").data,
  illTxt ++ (" look").data,
  illTxt ++ (" check").data,
  illTxt ++ (" gather").data,
  illTxt ++ (" start").data,
  ("let me search").data,
  ("let me try").data,
  ("let me look").data,
  ("let me check").data,
  ("let me find").data,
  ("let me gather").data,
  ("let me get").data,
  ("let me correct").data,
  ("let me fix").data,
  ("let me also").data,
  ("let me scrape").data,
  ("now let me").data,
  ("now ").data ++ illTxt,
  ("now i will").data,
  ("first, ").data ++ illTxt,
  ("first ").data ++ illTxt,
  ("first, let me").data,
  ("first let me").data,
  ("next, ").data ++ illTxt,
  ("next ").data ++ illTxt,
  ("next, let me").data,
  ("next let me").data,
  ("i found some").data,
  ("i found several").data,
  ("i found multiple").data,
  ("i found the following").data,
  ("i found initial").data,
  ("i can see").data,
  ("i need to").data,
  ("searching for").data,
  ("looking for").data,
  ("checking").data,
  ("gathering").data,
  ("fetching").data,
  ("great! let me").data,
  ("great! ").data ++ illTxt,
  ("great! now").data,
  ("great! i found").data ]

/-- Lower-case every character (the transition regexes are case-insensitive
and their literals are ASCII). -/
def lowerAscii (l : List Char) : List Char := l.map Char.toLower

/-- Embedded `isTransitionOnlyText` of `utils/textFilter.ts`. -/
def isTransitionOnlyText (text : List Char) : Bool :=
  if text = [] then true
  else
    let trimmed := jsTrim text
    if trimmed = [] then true
    else transitionStartPatterns.any (fun p => p.isPrefixOf (lowerAscii trimmed))

/-- Terminal sentence punctuation `[.!?]`. -/
def isTermPunct (c : Char) : Bool := c = '.' || c = '!' || c = '?'

/-- The character class `[A-Z]` of the negative lookbehind. -/
def isUpperAZ (c : Char) : Bool := 65 ≤ c.toNat && c.toNat ≤ 90

/-- The negative lookbehind `(?<![A-Z])`: there is no previous character, or
the previous character is not an ASCII capital letter. -/
def prevOk : Option Char → Bool
  | none => true
  | some p => !isUpperAZ p

/-- Scanner for the sentence pattern `^(.*?(?<![A-Z])[.!?])\s+(.*)$` (with
the `s` flag): find the least position holding terminal punctuation that is
not preceded by a capital letter and is followed by whitespace; the first
group is everything up to and including that punctuation, and the rest of
the string after the maximal whitespace run is the second group.  `acc` is
the prefix scanned so far and `prev` the previously scanned character. -/
def findSplitAux (acc : List Char) (prev : Option Char) : List Char → Option (List Char × List Char)
  | [] => none
  | c :: cs =>
      if isTermPunct c && prevOk prev && wsHead cs then
        some (acc ++ [c], cs.dropWhile jsWs)
      else
        findSplitAux (acc ++ [c]) (some c) cs

/-- One match of the sentence pattern against the buffer: the raw first
group and the second group, or `none` when the pattern does not match. -/
def findSplit (l : List Char) : Option (List Char × List Char) := findSplitAux [] none l

/-- Embedded `SentenceBuffer.processSentences` without the emission filter: the list
of all extracted (trimmed) sentences and the final buffer, with explicit
fuel (the pattern consumes at least two characters per match, so fuel
`b.length` is always enough). -/
def extractAux : Nat → List Char → List (List Char) × List Char
  | 0, b => ([], b)
  | n + 1, b =>
      match findSplit b with
      | none => ([], b)
      | some (sent, rest) =>
          let out := extractAux n rest
          (jsTrim sent :: out.1, out.2)

/-- All sentences the extraction loop matches in the buffer, trimmed and in
order, together with the leftover buffer. -/
def extractSentences (b : List Char) : List (List Char) × List Char :=
  extractAux b.length b

/-- The emission condition of `processSentences` / `emitSentence`: the
trimmed sentence is non-empty and not transition-only text. -/
def emitOk (s : List Char) : Bool := !(s = []) && !(isTransitionOnlyText s)

/-- Embedded `SentenceBuffer.processSentences`: repeatedly match the sentence
pattern; the trimmed first group of each match is emitted when non-empty and not
transition-only, and the second group becomes the new buffer. -/
def processAux : Nat → List Char → List (List Char) × List Char
  | 0, b => ([], b)
  | n + 1, b =>
      match findSplit b with
      | none => ([], b)
      | some (sent, rest) =>
          let s := jsTrim sent
          let out := processAux n rest
          (if emitOk s then s :: out.1 else out.1, out.2)

/-- Emissions and final buffer of `SentenceBuffer.processSentences`. -/
def processSentences (b : List Char) : List (List Char) × List Char :=
  processAux b.length b

/-- State of a `SentenceBuffer` instance: the accumulation buffer and the
Markdown-mode flag. -/
structure SB where
  buffer : List Char
  markdownMode : Bool
deriving DecidableEq, Repr

/-- The initial state of a freshly constructed `SentenceBuffer`. -/
def sbInit : SB := { buffer := [], markdownMode := false }

/-- Embedded `SentenceBuffer.flushDirect`: emit the whole buffer as one chunk when it
is non-empty, then clear it. -/
def flushDirect (sb : SB) : SB × List (List Char) :=
  if sb.buffer = [] then (sb, [])
  else ({ sb with buffer := [] }, [sb.buffer])

/-- Embedded `SentenceBuffer.processBuffer`: search the buffer for a Markdown marker;
at a positive index, run sentence extraction on the text before the marker,
then switch to Markdown mode with the text at and after the marker as the
new buffer and flush it directly (the leftover of the extraction is
overwritten, exactly as in the source); otherwise just extract sentences. -/
def processBuffer (sb : SB) : SB × List (List Char) :=
  match markerSearch sb.buffer with
  | some i =>
      if 0 < i then
        ((flushDirect ⟨sb.buffer.drop i, true⟩).1,
         (processSentences (sb.buffer.take i)).1 ++ (flushDirect ⟨sb.buffer.drop i, true⟩).2)
      else
        (⟨(processSentences sb.buffer).2, sb.markdownMode⟩, (processSentences sb.buffer).1)
  | none =>
      (⟨(processSentences sb.buffer).2, sb.markdownMode⟩, (processSentences sb.buffer).1)

/-- Embedded `SentenceBuffer.add`: append the text, enter Markdown mode when the
accumulated buffer starts like Markdown, then either flush directly
(Markdown mode) or process the buffer (prose mode). -/
def sbAdd (sb : SB) (text : List Char) : SB × List (List Char) :=
  if sb.markdownMode || isMarkdownStart (sb.buffer ++ text) then
    flushDirect ⟨sb.buffer ++ text, sb.markdownMode || isMarkdownStart (sb.buffer ++ text)⟩
  else
    processBuffer ⟨sb.buffer ++ text, sb.markdownMode || isMarkdownStart (sb.buffer ++ text)⟩

/-- Embedded `SentenceBuffer.flush`: when the trimmed buffer is empty the method
returns early (leaving buffer and mode untouched); otherwise it emits the
trimmed content (unconditionally in Markdown mode, filtered through the
transition check in prose mode) and then clears the buffer and the mode. -/
def sbFlush (sb : SB) : SB × List (List Char) :=
  if jsTrim sb.buffer = [] then (sb, [])
  else
    (⟨[], false⟩,
     if sb.markdownMode then [jsTrim sb.buffer]
     else if isTransitionOnlyText (jsTrim sb.buffer) then [] else [jsTrim sb.buffer])

/-- Embedded `SentenceBuffer.reset`. -/
def sbReset : SB := ⟨[], false⟩

/-- One public operation on a `SentenceBuffer` instance. -/
inductive SBOp
  | add (text : List Char)
  | flush
  | reset
deriving DecidableEq, Repr

/-- Apply one operation, returning the new state and its emissions. -/
def applyOp (sb : SB) : SBOp → SB × List (List Char)
  | .add t => sbAdd sb t
  | .flush => sbFlush sb
  | .reset => (sbReset, [])

/-- Run a list of operations, collecting all emissions in order. -/
def applyOps (sb : SB) : List SBOp → SB × List (List Char)
  | [] => (sb, [])
  | op :: ops =>
      ((applyOps (applyOp sb op).1 ops).1,
       (applyOp sb op).2 ++ (applyOps (applyOp sb op).1 ops).2)

/-- The raw passthrough emissions of an operation list when the buffer is in
Markdown mode: each non-empty added chunk, unmodified and unsplit, in
order; `flush` emits nothing. -/
def rawEmissions : List SBOp → List (List Char)
  | [] => []
  | .add t :: ops => (if t = [] then [] else [t]) ++ rawEmissions ops
  | _ :: ops => rawEmissions ops

/-- State invariant of a `SentenceBuffer`: in Markdown mode the buffer is
empty (every path that turns the mode on ends in `flushDirect`). -/
def mdInv (sb : SB) : Prop := sb.markdownMode = true → sb.buffer = []

/-! Infrastructure for the reconstruction claim (C1): a buffer decomposes
into the extracted sentences interleaved with pure whitespace. -/

/-- A list of characters made only of JavaScript whitespace. -/
def WsOnly (l : List Char) : Prop := ∀ c ∈ l, jsWs c = true

/-- Definition: `WsDecomp ss input buf` says: `input` is exactly the sentences `ss`, in
order, interleaved with (possibly empty) pure-whitespace separators, and
followed by the raw trailing segment `buf`. -/
def WsDecomp : List (List Char) → List Char → List Char → Prop
  | [], input, buf => ∃ w, WsOnly w ∧ input = w ++ buf
  | s :: ss, input, buf => ∃ w rest, WsOnly w ∧ input = w ++ s ++ rest ∧ WsDecomp ss rest buf

/-- No Markdown marker matches at any position of the string. -/
def NoMarker (l : List Char) : Prop := ∀ l1 l2, l = l1 ++ l2 → markerHead l2 = false

/-- Concatenation of a chunk list. -/
def concatChunks : List (List Char) → List Char
  | [] => []
  | c :: cs => c ++ concatChunks cs

/-- Ghost run of the prose pipeline over a chunk list starting from buffer
`b`: all extracted sentences (before the emission filter) in order, and the
final buffer. -/
def proseChunks : List Char → List (List Char) → List (List Char) × List Char
  | b, [] => ([], b)
  | b, c :: cs =>
      ((extractSentences (b ++ c)).1 ++ (proseChunks (extractSentences (b ++ c)).2 cs).1,
       (proseChunks (extractSentences (b ++ c)).2 cs).2)

/-- All sentences of the full run (ghost sentences plus the trimmed flush
remainder when non-empty). -/
def proseSentsAll (cs : List (List Char)) : List (List Char) :=
  (proseChunks [] cs).1 ++
    (if jsTrim (proseChunks [] cs).2 = [] then [] else [jsTrim (proseChunks [] cs).2])

/-! Client stream consumer (`ChatInterface.tsx`). -/

/-- Role of a chat message. -/
inductive Role
  | user
  | assistant
deriving DecidableEq, Repr

/-- A chat message of the client interface. -/
structure CMessage where
  id : Nat
  role : Role
  content : List Char
  isStreaming : Bool
deriving DecidableEq, Repr

/-- A stream event as consumed by the client: the category tag plus the
fields `handleStreamEvent` reads.  An absent string field is modelled as
the empty string, which is equally falsy under the guards of the handler. -/
inductive SEvent
  | assistantText (content : List Char)
  | toolStart (toolId toolName displayName : List Char)
  | toolComplete (toolId : List Char)
  | toolError (toolId message : List Char)
  | completeEv
  | errorEv (message : List Char)
deriving DecidableEq, Repr

/-- The client chat state `handleStreamEvent` touches: the message list,
the text accumulator `textBufferRef`, the current assistant message id
`currentMessageIdRef`, and the loading flag.  The parallel tool-status list
of `useToolStatus` is display-only and never feeds back into this state. -/
structure CState where
  messages : List CMessage
  textBuffer : List Char
  currentId : Option Nat
  isLoading : Bool
deriving DecidableEq, Repr

/-- The `setMessages(prev => prev.map(msg => msg.id === messageId ? ... :
msg))` pattern: rewrite the message with the given id. -/
def updMessages (ms : List CMessage) (mid : Nat) (f : CMessage → CMessage) : List CMessage :=
  ms.map (fun m => if m.id == mid then f m else m)

/-- Embedded `handleStreamEvent` of `ChatInterface.tsx`. -/
def handleStreamEvent (st : CState) (e : SEvent) : CState :=
  match st.currentId with
  | none => st
  | some mid =>
    match e with
    | .assistantText c =>
        if c = [] then st
        else
          { st with
            textBuffer := st.textBuffer ++ c,
            messages := updMessages st.messages mid
              (fun m => { m with content := st.textBuffer ++ c, isStreaming := true }) }
    | .toolStart _ _ _ => st
    | .toolComplete _ => st
    | .toolError _ _ => st
    | .completeEv =>
        { st with
          messages := updMessages st.messages mid (fun m => { m with isStreaming := false }),
          isLoading := false }
    | .errorEv msg =>
        { st with
          messages := updMessages st.messages mid
            (fun m => { m with
              content := if st.textBuffer = [] then ("⚠️ ").data ++ msg
                         else st.textBuffer ++ ("\n\n⚠️ ").data ++ msg,
              isStreaming := false }),
          isLoading := false }

/-- Process a list of stream events in order. -/
def handleStreamEvents (st : CState) : List SEvent → CState
  | [] => st
  | e :: es => handleStreamEvents (handleStreamEvent st e) es

/-- Client state right after `handleSubmit` appended the user message and
the fresh empty streaming assistant message. -/
def cInit (uid mid : Nat) (query : List Char) : CState :=
  { messages := [⟨uid, Role.user, query, false⟩, ⟨mid, Role.assistant, [], true⟩],
    textBuffer := [],
    currentId := some mid,
    isLoading := true }

/-- Look up a message by id, as the render layer does. -/
def getMsg (st : CState) (mid : Nat) : Option CMessage :=
  st.messages.find? (fun m => m.id == mid)

/-! Tool display helpers (`utils/toolUtils.ts`) and the research handler
(`api/research.ts`).  `JSON.parse` and `new URL` are platform builtins;
they are abstracted as parameters (`jparse`, `uparse`), with `none`
modelling a thrown exception. -/

/-- A JavaScript value as produced by `JSON.parse`. -/
inductive JsValue
  | vNull
  | vBool (b : Bool)
  | vNum (n : Int)
  | vStr (s : List Char)
  | vArr (xs : List JsValue)
  | vObj (fields : List (List Char × JsValue))

/-- JavaScript truthiness of a parsed JSON value (`NaN` cannot arise from
`JSON.parse` of finite JSON numbers modelled here). -/
def truthy : JsValue → Bool
  | .vNull => false
  | .vBool b => b
  | .vNum n => decide (n ≠ 0)
  | .vStr s => decide (s ≠ [])
  | .vArr _ => true
  | .vObj _ => true

/-- Association-list lookup on string keys (parsed JSON objects hold each
key once, later duplicates having overwritten earlier ones at parse
time). -/
def lookupField : List (List Char × JsValue) → List Char → Option JsValue
  | [], _ => none
  | (key, v) :: rest, k => if key = k then some v else lookupField rest k

/-- Property access `obj.field`: `none` models `undefined` (non-objects
and missing keys). -/
def getField : JsValue → List Char → Option JsValue
  | .vObj fields, k => lookupField fields k
  | _, _ => none

/-- Truthiness of a possibly-`undefined` value. -/
def truthyOpt : Option JsValue → Bool
  | none => false
  | some v => truthy v

/-- Join strings with commas (JavaScript `Array.prototype.toString`). -/
def joinCommas : List (List Char) → List Char
  | [] => []
  | [s] => s
  | s :: rest => s ++ ',' :: joinCommas rest

mutual
/-- JavaScript `String(v)` on a parsed JSON value. -/
def jsToString : JsValue → List Char
  | .vNull => ("null").data
  | .vBool true => ("true").data
  | .vBool false => ("false").data
  | .vNum n => (toString n).data
  | .vStr s => s
  | .vArr xs => joinCommas (jsToStringList xs)
  | .vObj _ => ("[object Object]").data

/-- Embedded `String` applied across an array. -/
def jsToStringList : List JsValue → List (List Char)
  | [] => []
  | x :: xs => jsToString x :: jsToStringList xs
end

/-- Embedded `TOOL_DISPLAY_NAMES` of `utils/toolUtils.ts`. -/
def TOOL_DISPLAY_NAMES : List (List Char × List Char) := [
  (("mcp__firecrawl__firecrawl_search").data, ("Web Search").data),
  (("mcp__firecrawl__firecrawl_scrape").data, ("Page Scrape").data),
  (("mcp__firecrawl__firecrawl_crawl").data, ("Site Crawl").data),
  (("mcp__firecrawl__firecrawl_map").data, ("Site Map").data) ]

/-- Embedded `PRETTY_SITE_NAMES` of `utils/toolUtils.ts`. -/
def PRETTY_SITE_NAMES : List (List Char × List Char) := [
  (("linkedin").data, ("LinkedIn").data),
  (("github").data, ("GitHub").data),
  (("twitter").data, ("Twitter").data),
  (("x").data, ("X (Twitter)").data),
  (("facebook").data, ("Facebook").data),
  (("instagram").data, ("Instagram").data),
  (("researchgate").data, ("ResearchGate").data),
  (("scholar").data, ("Google Scholar").data),
  (("orcid").data, ("ORCID").data),
  (("medium").data, ("Medium").data),
  (("stackoverflow").data, ("Stack Overflow").data),
  (("reddit").data, ("Reddit").data),
  (("youtube").data, ("YouTube").data),
  (("wikipedia").data, ("Wikipedia").data),
  (("crunchbase").data, ("Crunchbase").data),
  (("glassdoor").data, ("Glassdoor").data),
  (("indeed").data, ("Indeed").data) ]

/-- String-keyed association lookup. -/
def lookupStr : List (List Char × List Char) → List Char → Option (List Char)
  | [], _ => none
  | (k, v) :: rest, key => if k = key then some v else lookupStr rest key

/-- Embedded `String.prototype.includes`: Boolean substring containment. -/
def includesSeg (pat : List Char) : List Char → Bool
  | [] => pat.isPrefixOf []
  | c :: cs => pat.isPrefixOf (c :: cs) || includesSeg pat cs

/-- The regex word class `\w` = `[A-Za-z0-9_]`. -/
def isWordChar (c : Char) : Bool :=
  (65 ≤ c.toNat && c.toNat ≤ 90) || (97 ≤ c.toNat && c.toNat ≤ 122) ||
  (48 ≤ c.toNat && c.toNat ≤ 57) || c = '_'

/-- Greedy-with-backtracking cut point of `^mcp__\w+__`: the largest
`j ≥ 1` such that the first `j` characters after `mcp__` are word
characters and a double underscore follows them; scanned downward from the
string length. -/
def findCutDown (rest : List Char) : Nat → Option Nat
  | 0 => none
  | j + 1 =>
      if (rest.take (j + 1)).all isWordChar && ("__").data.isPrefixOf (rest.drop (j + 1))
      then some (j + 1)
      else findCutDown rest j

/-- Embedded `toolName.replace(/^mcp__\w+__/, "")`: drop the matched leading
`mcp__...__` segment when the regex matches, else leave the name alone. -/
def stripMcpHead (name : List Char) : List Char :=
  match name with
  | 'm' :: 'c' :: 'p' :: '_' :: '_' :: rest =>
      match findCutDown rest rest.length with
      | some j => rest.drop (j + 2)
      | none => name
  | _ => name

/-- Embedded `getToolDisplayName` of `utils/toolUtils.ts`: mapped display name, or
the name with its `mcp__...__` head stripped and underscores turned into
spaces. -/
def getToolDisplayName (toolName : List Char) : List Char :=
  match lookupStr TOOL_DISPLAY_NAMES toolName with
  | some d => d
  | none => (stripMcpHead toolName).map (fun c => if c = '_' then ' ' else c)

/-- Embedded `host.replace("www.", "")`: remove the first occurrence of the
pattern, anywhere in the string. -/
def removeFirstOcc (pat : List Char) : List Char → List Char
  | [] => []
  | c :: cs =>
      if pat.isPrefixOf (c :: cs) then (c :: cs).drop pat.length
      else c :: removeFirstOcc pat cs

/-- Embedded `prettifySiteName` of `utils/toolUtils.ts`. -/
def prettifySiteName (domain : List Char) : List Char :=
  match lookupStr PRETTY_SITE_NAMES (lowerAscii domain) with
  | some p => p
  | none =>
      match domain with
      | [] => []
      | c :: cs => Char.toUpper c :: cs

/-- Embedded `extractSiteNameFromUrl`, with the platform URL constructor abstracted
as `uparse` (the hostname of the URL, or `none` when `new URL` throws; the
catch returns the first 30 characters of the stringified input). -/
def extractSiteNameFromUrl (uparse : List Char → Option (List Char)) (url : JsValue) :
    List Char :=
  match uparse (jsToString url) with
  | some hostname =>
      prettifySiteName ((removeFirstOcc ("www.").data hostname).takeWhile (fun c => c != '.'))
  | none => (jsToString url).take 30

/-- Embedded `extractToolDetail` of `utils/toolUtils.ts`, with `JSON.parse`
abstracted as `jparse` (`none` models a parse exception, caught by the
surrounding try/catch, which returns the empty string). -/
def extractToolDetail (jparse : List Char → Option JsValue)
    (uparse : List Char → Option (List Char)) (toolName input : List Char) : List Char :=
  if input = [] then []
  else
    match jparse input with
    | none => []
    | some parsed =>
        if includesSeg ("search").data toolName
            && truthyOpt (getField parsed ("query").data) then
          match getField parsed ("query").data with
          | some q =>
              if 30 < (jsToString q).length then (jsToString q).take 30 ++ ("...").data
              else jsToString q
          | none => []
        else if (includesSeg ("scrape").data toolName || includesSeg ("crawl").data toolName)
            && truthyOpt (getField parsed ("url").data) then
          match getField parsed ("url").data with
          | some u => extractSiteNameFromUrl uparse u
          | none => []
        else []

/-- Outcome of the research handler for a POST request: an immediate JSON
response with a status code, or the streaming SSE response. -/
inductive HResp
  | jsonResp (status : Nat)
  | streamResp (personName : List Char)
deriving DecidableEq, Repr

/-- The validation and dispatch prefix of `handler` in `api/research.ts`
for POST requests.  `none` for the body models a `req.json()` exception
(invalid JSON), caught by the outer try/catch as a 500.  A JSON `null`
body also yields a 500: the destructuring
`const \x7b personName \x7d = await req.json()` throws a TypeError on
`null`, caught by the same outer catch.  On every other body value the
destructuring succeeds and `personName` is the property value
(`undefined`, hence falsy, on non-objects and on objects without the
key); a missing or falsy `personName` returns 400 before any stream
exists.  A truthy non-string `personName` reaches
`isResearchQuery(personName)`, whose `query.trim()` throws a TypeError on
non-strings; the outer catch turns it into a 500, still before the
`ReadableStream` is constructed.  A truthy string proceeds to the
streaming response. -/
def handlerOutcome (body : Option JsValue) : HResp :=
  match body with
  | none => .jsonResp 500
  | some .vNull => .jsonResp 500
  | some b =>
      match getField b ("personName").data with
      | none => .jsonResp 400
      | some v =>
          if truthy v = false then .jsonResp 400
          else
            match v with
            | .vStr s => .streamResp s
            | _ => .jsonResp 500

/-! The stream body of the research handler: the upstream event loop. -/

/-- An upstream agent event, as read by the `for await` loop of the handler.
String fields model absent values as the empty string (equally falsy
under the guards of the handler). -/
inductive UpEvent
  | textEv (content : List Char)
  | toolUse (toolUseId toolName : List Char)
  | toolUseInput (toolUseId piece : List Char)
  | toolUseApproved (toolUseId toolName : List Char)
  | toolUseResult (toolUseId : List Char)
  | toolUseError (toolUseId errMsg : List Char)
  | completed
  | otherEv
deriving DecidableEq, Repr

/-- An outbound SSE event of the research handler (the wall-clock
`duration` field of `complete` and the shared `timestamp` field are not
modelled; keepalive frames are comments, not events). -/
inductive OutEvent
  | assistantText (content : List Char)
  | toolStart (toolId toolName displayName : List Char)
  | toolComplete (toolId : List Char)
  | toolError (toolId message : List Char)
  | completeEv (toolsUsed : Nat)
  | errorEv (message : List Char)
deriving DecidableEq, Repr

/-- Embedded `simplifyToolError` of `utils/toolUtils.ts`. -/
def simplifyToolError (error : List Char) : List Char :=
  if includesSeg ("not currently supported").data (lowerAscii error) then
    ("Source not supported").data
  else if includesSeg ("parameter validation").data (lowerAscii error) then
    ("Retrying with adjusted parameters").data
  else if includesSeg ("timeout").data (lowerAscii error)
      || includesSeg ("timed out").data (lowerAscii error) then
    ("Request timed out, retrying").data
  else if includesSeg ("rate limit").data (lowerAscii error) then
    ("Too many requests").data
  else if includesSeg ("not found").data (lowerAscii error)
      || includesSeg ("404").data (lowerAscii error) then
    ("Page not found").data
  else if includesSeg ("forbidden").data (lowerAscii error)
      || includesSeg ("403").data (lowerAscii error) then
    ("Access denied").data
  else if includesSeg ("unauthorized").data (lowerAscii error)
      || includesSeg ("401").data (lowerAscii error) then
    ("Authorization required").data
  else ("An error occurred, retrying").data

/-- Embedded `buildToolDisplayWithDetail` of `utils/toolUtils.ts`. -/
def buildToolDisplayWithDetail (jparse : List Char → Option JsValue)
    (uparse : List Char → Option (List Char)) (toolName input : List Char) : List Char :=
  if extractToolDetail jparse uparse toolName input = [] then getToolDisplayName toolName
  else getToolDisplayName toolName ++ (": ").data ++ extractToolDetail jparse uparse toolName input

/-- Embedded `Map.prototype.set`: overwrite or insert a key. -/
def mapSet (m : List (List Char × List Char)) (k v : List Char) :
    List (List Char × List Char) :=
  match m with
  | [] => [(k, v)]
  | (k2, v2) :: rest => if k2 = k then (k, v) :: rest else (k2, v2) :: mapSet rest k v

/-- Embedded `Map.prototype.delete`. -/
def mapDel (m : List (List Char × List Char)) (k : List Char) :
    List (List Char × List Char) :=
  match m with
  | [] => []
  | (k2, v2) :: rest => if k2 = k then rest else (k2, v2) :: mapDel rest k

/-- Per-request loop state of the stream body: the sentence buffer, the
`tools` and `toolInputs` maps, and the tool counter. -/
structure LoopState where
  sb : SB
  toolNames : List (List Char × List Char)
  toolInputs : List (List Char × List Char)
  toolCount : Nat

/-- One iteration of the `for await` loop of `api/research.ts`. -/
def stepEvent (jparse : List Char → Option JsValue)
    (uparse : List Char → Option (List Char)) (st : LoopState) :
    UpEvent → LoopState × List OutEvent
  | .textEv c =>
      if c = [] then (st, [])
      else
        ({ st with sb := (sbAdd st.sb c).1 },
         ((sbAdd st.sb c).2).map OutEvent.assistantText)
  | .toolUse id name =>
      if id ≠ [] ∧ name ≠ [] then
        ({ st with toolCount := st.toolCount + 1,
                   toolNames := mapSet st.toolNames id name,
                   toolInputs := mapSet st.toolInputs id [] }, [])
      else (st, [])
  | .toolUseInput id piece =>
      if id ≠ [] ∧ piece ≠ [] then
        ({ st with toolInputs := mapSet st.toolInputs id ((lookupStr st.toolInputs id).getD [] ++ piece) }, [])
      else (st, [])
  | .toolUseApproved id name =>
      if id ≠ [] ∧ name ≠ [] then
        (st, [OutEvent.toolStart id name
          (buildToolDisplayWithDetail jparse uparse name
            ((lookupStr st.toolInputs id).getD []))])
      else (st, [])
  | .toolUseResult id =>
      if id ≠ [] then
        ({ st with toolNames := mapDel st.toolNames id,
                   toolInputs := mapDel st.toolInputs id },
         [OutEvent.toolComplete id])
      else (st, [])
  | .toolUseError id msg =>
      if id ≠ [] then
        ({ st with toolNames := mapDel st.toolNames id,
                   toolInputs := mapDel st.toolInputs id },
         [OutEvent.toolError id (simplifyToolError msg)])
      else (st, [])
  | .completed =>
      ({ st with sb := (sbFlush st.sb).1 },
       ((sbFlush st.sb).2).map OutEvent.assistantText ++ [OutEvent.completeEv st.toolCount])
  | .otherEv => (st, [])

/-- Run the loop over a list of upstream events, collecting the outbound
events in order. -/
def runLoop (jparse : List Char → Option JsValue)
    (uparse : List Char → Option (List Char)) (st : LoopState) :
    List UpEvent → LoopState × List OutEvent
  | [] => (st, [])
  | e :: es =>
      ((runLoop jparse uparse (stepEvent jparse uparse st e).1 es).1,
       (stepEvent jparse uparse st e).2 ++
         (runLoop jparse uparse (stepEvent jparse uparse st e).1 es).2)

/-- The fresh loop state of one request. -/
def initLoop : LoopState := ⟨sbInit, [], [], 0⟩

/-- The outbound event sequence of the stream body of one request.  When `exc`
is `some (k, msg)`, iteration throws after the first `k` upstream events:
the catch block flushes the buffer and appends exactly one `error` event.
Otherwise the loop ends normally, the buffer is flushed, and the stream is
closed with no further terminal event. -/
def runStream (jparse : List Char → Option JsValue)
    (uparse : List Char → Option (List Char)) (evs : List UpEvent)
    (exc : Option (Nat × List Char)) : List OutEvent :=
  match exc with
  | none =>
      (runLoop jparse uparse initLoop evs).2 ++
        ((sbFlush (runLoop jparse uparse initLoop evs).1.sb).2).map OutEvent.assistantText
  | some (k, msg) =>
      (runLoop jparse uparse initLoop (evs.take k)).2 ++
        ((sbFlush (runLoop jparse uparse initLoop (evs.take k)).1.sb).2).map
          OutEvent.assistantText ++
        [OutEvent.errorEv msg]

/-- Terminal outbound events: `complete` and `error`. -/
def isTerminal : OutEvent → Bool
  | .completeEv _ => true
  | .errorEv _ => true
  | _ => false

/-- Number of terminal events in an outbound sequence. -/
def countTerminal (outs : List OutEvent) : Nat := (outs.filter isTerminal).length

/-- Is this upstream event a `completed` event? -/
def isCompletedEv : UpEvent → Bool
  | .completed => true
  | _ => false

/-- Number of `completed` events in an upstream sequence. -/
def countCompleted (evs : List UpEvent) : Nat := (evs.filter isCompletedEv).length

/-- Lemma: `flushDirect` always leaves an empty buffer. -/
theorem flushDirect_buffer_nil (sb : SB) : (flushDirect sb).1.buffer = [] := by
  unfold flushDirect
  split
  · next h => exact h
  · rfl

/-- After any `add` the invariant holds, whatever the input state. -/
theorem sbAdd_mdInv (sb : SB) (t : List Char) : mdInv (sbAdd sb t).1 := by
  unfold sbAdd
  by_cases hmd : (sb.markdownMode || isMarkdownStart (sb.buffer ++ t)) = true
  · rw [if_pos hmd]
    intro _
    exact flushDirect_buffer_nil _
  · rw [if_neg hmd]
    simp only [Bool.not_eq_true] at hmd
    unfold processBuffer
    cases hms : markerSearch ((⟨sb.buffer ++ t,
        sb.markdownMode || isMarkdownStart (sb.buffer ++ t)⟩ : SB).buffer) with
    | none =>
        dsimp only
        intro h
        rw [hmd] at h
        exact absurd h (by simp)
    | some i =>
        dsimp only
        by_cases hi : 0 < i
        · rw [if_pos hi]
          intro _
          exact flushDirect_buffer_nil _
        · rw [if_neg hi]
          intro h
          rw [hmd] at h
          exact absurd h (by simp)

/-- Lemma: `flush` preserves the invariant. -/
theorem sbFlush_mdInv (sb : SB) (h : mdInv sb) : mdInv (sbFlush sb).1 := by
  unfold sbFlush
  by_cases hr : jsTrim sb.buffer = []
  · rw [if_pos hr]
    exact h
  · rw [if_neg hr]
    intro _
    rfl

/-- The invariant holds in every state reachable from a fresh buffer. -/
theorem applyOps_mdInv (ops : List SBOp) : mdInv (applyOps sbInit ops).1 := by
  suffices h : ∀ ops (sb : SB), mdInv sb → mdInv (applyOps sb ops).1 by
    exact h ops sbInit (by intro h'; rfl)
  intro ops
  induction ops with
  | nil => intro sb h; exact h
  | cons op ops ih =>
      intro sb h
      cases op with
      | add t => exact ih _ (sbAdd_mdInv sb t)
      | flush => exact ih _ (sbFlush_mdInv sb h)
      | reset => exact ih _ (by intro _; rfl)

/-- From the state `⟨[], true⟩` (Markdown mode, empty buffer), any
reset-free operation list keeps the state fixed and emits exactly the raw
chunks. -/
theorem applyOps_markdown_raw (more : List SBOp) (hnr : SBOp.reset ∉ more) :
    applyOps ⟨[], true⟩ more = (⟨[], true⟩, rawEmissions more) := by
  induction more with
  | nil => rfl
  | cons op ops ih =>
      have hop : op ≠ SBOp.reset := by
        intro h
        exact hnr (by rw [h]; exact List.mem_cons_self _ _)
      have hops : SBOp.reset ∉ ops := fun h => hnr (List.mem_cons_of_mem _ h)
      cases op with
      | add t =>
          have hadd : applyOp ⟨[], true⟩ (SBOp.add t)
              = (⟨[], true⟩, if t = [] then [] else [t]) := by
            show sbAdd ⟨[], true⟩ t = _
            unfold sbAdd flushDirect
            by_cases ht : t = []
            · subst ht; rfl
            · simp [ht]
          simp only [applyOps, hadd, ih hops, rawEmissions]
      | flush =>
          have hfl : applyOp ⟨[], true⟩ SBOp.flush = (⟨[], true⟩, []) := by decide
          simp only [applyOps, hfl, ih hops, rawEmissions]
          rfl
      | reset => exact absurd rfl hop

/-- C2: once a buffer instance has entered Markdown mode, it stays in
Markdown mode under every reset-free continuation, and every subsequent
emission is the raw added chunk, passed through without sentence
splitting.  (The mode survives `flush()` because in Markdown mode the
buffer is always empty, so `flush()` returns early before its
mode-clearing line.) -/
theorem c2_markdown_mode_sticky (ops more : List SBOp)
    (hmd : (applyOps sbInit ops).1.markdownMode = true)
    (hnr : SBOp.reset ∉ more) :
    (applyOps (applyOps sbInit ops).1 more).1.markdownMode = true ∧
    (applyOps (applyOps sbInit ops).1 more).2 = rawEmissions more := by
  have hbuf : (applyOps sbInit ops).1.buffer = [] := applyOps_mdInv ops hmd
  have hst : (applyOps sbInit ops).1 = (⟨[], true⟩ : SB) := by
    cases h : (applyOps sbInit ops).1 with
    | mk b m =>
        rw [h] at hbuf hmd
        simp only at hbuf hmd
        rw [hbuf, hmd]
  rw [hst, applyOps_markdown_raw more hnr]
  exact ⟨rfl, rfl⟩

/-- Witness for C2 at a concrete run: entering Markdown mode via a list
marker, then adding prose and flushing; the prose chunk passes through
unsplit. -/
theorem c2_markdown_mode_sticky_witness :
    (applyOps (applyOps sbInit [SBOp.add ("- a").data]).1
        [SBOp.add ("Hello. World").data, SBOp.flush]).1.markdownMode = true ∧
    (applyOps (applyOps sbInit [SBOp.add ("- a").data]).1
        [SBOp.add ("Hello. World").data, SBOp.flush]).2
      = rawEmissions [SBOp.add ("Hello. World").data, SBOp.flush] :=
  c2_markdown_mode_sticky [SBOp.add ("- a").data]
    [SBOp.add ("Hello. World").data, SBOp.flush] (by decide) (by decide)

/-- C4 counterexample: the lookbehind `(?<![A-Z])` checks the character
immediately before the period; in "Dr." that character is the lowercase
`r`, so the code does split at that period.  Feeding "Dr. Smith arrived."
through `add` and `flush` delivers "Dr." and "Smith arrived." as two
separate callback emissions, and in particular an emission equal to "Dr."
occurs. -/
theorem c4_counterexample :
    ((sbAdd sbInit ("Dr. Smith arrived.").data).2 ++
        (sbFlush (sbAdd sbInit ("Dr. Smith arrived.").data).1).2
      = [("Dr.").data, ("Smith arrived.").data]) ∧
    ("Dr.").data ∈ (sbAdd sbInit ("Dr. Smith arrived.").data).2 := by decide

/-- C4 amended: the split suppression applies only when the terminal
punctuation is immediately preceded by an ASCII uppercase letter
(single-letter abbreviations such as "J."): "J. Smith arrived." is kept
whole and emitted as one unit by `flush`, while "Dr. Smith arrived." is
split after "Dr.". -/
theorem c4_amended :
    ((sbAdd sbInit ("J. Smith arrived.").data).2 ++
        (sbFlush (sbAdd sbInit ("J. Smith arrived.").data).1).2
      = [("J. Smith arrived.").data]) ∧
    ((sbAdd sbInit ("Dr. Smith arrived.").data).2 ++
        (sbFlush (sbAdd sbInit ("Dr. Smith arrived.").data).1).2
      = [("Dr.").data, ("Smith arrived.").data]) := by decide

/-- C5 counterexample: `flush()` returns early when the buffer trims to
empty, so it does not always clear the state.  After `add(" ")` the buffer
is the single space, and `flush()` leaves it there; after `add("- a")` the
instance is in Markdown mode with an empty buffer, and `flush()` leaves the
mode set. -/
theorem c5_counterexample :
    ((sbFlush (sbAdd sbInit (" ").data).1).1.buffer = (" ").data ∧
     (sbFlush (sbAdd sbInit (" ").data).1).1.buffer ≠ []) ∧
    (sbFlush (sbAdd sbInit ("- a").data).1).1.markdownMode = true := by decide

/-- C5 amended: `flush` clears the buffer and resets the mode to prose
exactly when the trimmed buffer content is non-empty; when the buffer trims
to empty it is a no-op (state untouched, nothing emitted).  The emission is
the trimmed content — unconditional in Markdown mode, filtered through the
transition check in prose mode. -/
theorem c5_amended (sb : SB) :
    (sbFlush sb).1 = (if jsTrim sb.buffer = [] then sb else (⟨[], false⟩ : SB)) ∧
    (sbFlush sb).2 =
      (if jsTrim sb.buffer = [] then []
       else if sb.markdownMode then [jsTrim sb.buffer]
       else if isTransitionOnlyText (jsTrim sb.buffer) then [] else [jsTrim sb.buffer]) := by
  unfold sbFlush
  by_cases h : jsTrim sb.buffer = []
  · simp [h]
  · simp [h]

/-- A found Markdown marker index lies inside the buffer. -/
theorem markerSearch_lt {l : List Char} {i : Nat} (h : markerSearch l = some i) :
    i < l.length := by
  induction l generalizing i with
  | nil => simp [markerSearch] at h
  | cons c cs ih =>
      simp only [markerSearch] at h
      split at h
      · cases h; simp
      · cases hm : markerSearch cs with
        | none => rw [hm] at h; simp at h
        | some j =>
            rw [hm] at h
            simp at h
            have := ih hm
            simp only [List.length_cons]
            omega

/-- C10: in prose mode, when `add` finds a Markdown marker at a positive
index of the combined buffer, the output is exactly the complete sentences
extracted from the text before the marker followed by the raw text at and
after the marker, and the new state is Markdown mode with an empty buffer:
the extraction leftover (incomplete prose before the marker) is neither
emitted nor retained, because the buffer is overwritten by the post-marker
text. -/
theorem c10_pre_marker_prose_discarded (sb : SB) (t : List Char) (i : Nat)
    (hmd : sb.markdownMode = false)
    (hstart : isMarkdownStart (sb.buffer ++ t) = false)
    (hsearch : markerSearch (sb.buffer ++ t) = some i)
    (hi : 0 < i) :
    sbAdd sb t =
      ((⟨[], true⟩ : SB),
       (processSentences ((sb.buffer ++ t).take i)).1 ++ [(sb.buffer ++ t).drop i]) := by
  have hlen : i < (sb.buffer ++ t).length := markerSearch_lt hsearch
  have hdrop : (sb.buffer ++ t).drop i ≠ [] := by
    intro h
    have h2 : ((sb.buffer ++ t).drop i).length = 0 := by rw [h]; rfl
    rw [List.length_drop] at h2
    omega
  unfold sbAdd
  rw [hmd, hstart]
  rw [if_neg (by simp)]
  unfold processBuffer
  have hsearch2 : markerSearch ((⟨sb.buffer ++ t, false || isMarkdownStart (sb.buffer ++ t)⟩
      : SB).buffer) = some i := hsearch
  simp only [hsearch2]
  rw [if_pos hi]
  unfold flushDirect
  simp only [hdrop, if_false]

/-- Witness for C10: adding "Hello wor** bold" to a fresh buffer finds the
bold marker at index 9; the incomplete prose "Hello wor" yields no
complete sentence and is dropped, while "** bold" is passed through. -/
theorem c10_pre_marker_prose_discarded_witness :
    (sbInit.markdownMode = false ∧
     isMarkdownStart (sbInit.buffer ++ ("Hello wor** bold").data) = false ∧
     markerSearch (sbInit.buffer ++ ("Hello wor** bold").data) = some 9) ∧
    sbAdd sbInit ("Hello wor** bold").data =
      ((⟨[], true⟩ : SB),
       (processSentences ((sbInit.buffer ++ ("Hello wor** bold").data).take 9)).1 ++
         [(sbInit.buffer ++ ("Hello wor** bold").data).drop 9]) :=
  ⟨⟨rfl, by decide, by decide⟩,
   c10_pre_marker_prose_discarded sbInit ("Hello wor** bold").data 9 rfl
     (by decide) (by decide) (by decide)⟩

theorem wsOnly_nil : WsOnly [] := by intro c hc; cases hc

theorem wsOnly_append {w1 w2 : List Char} (h1 : WsOnly w1) (h2 : WsOnly w2) :
    WsOnly (w1 ++ w2) := by
  intro c hc
  rcases List.mem_append.mp hc with h | h
  · exact h1 c h
  · exact h2 c h

/-- The head of a `dropWhile` result falsifies the predicate. -/
theorem dropWhile_head_false {α} (p : α → Bool) (l : List α) (c : α) (cs : List α)
    (h : l.dropWhile p = c :: cs) : p c = false := by
  induction l with
  | nil => cases h
  | cons a rest ih =>
      rw [List.dropWhile_cons] at h
      by_cases hp : p a = true
      · rw [if_pos hp] at h
        exact ih h
      · rw [if_neg hp] at h
        cases h
        exact Bool.not_eq_true _ |>.mp hp

/-- Lemma: `takeWhile` members satisfy the predicate. -/
theorem mem_takeWhile_sat {α} (p : α → Bool) (l : List α) (c : α)
    (h : c ∈ l.takeWhile p) : p c = true := by
  induction l with
  | nil => cases h
  | cons a rest ih =>
      rw [List.takeWhile_cons] at h
      by_cases hp : p a = true
      · rw [if_pos hp] at h
        rcases List.mem_cons.mp h with h | h
        · rw [h]; exact hp
        · exact ih h
      · rw [if_neg hp] at h
        cases h

/-- Lemma: `dropWhile` distributes over an appended non-matching last element. -/
theorem dropWhile_append_singleton {α} (p : α → Bool) (l : List α) (c : α)
    (hc : p c = false) : (l ++ [c]).dropWhile p = l.dropWhile p ++ [c] := by
  induction l with
  | nil => simp [List.dropWhile_cons, hc]
  | cons a rest ih =>
      rw [List.cons_append, List.dropWhile_cons, List.dropWhile_cons]
      by_cases hp : p a = true
      · rw [if_pos hp, if_pos hp]
        exact ih
      · rw [if_neg hp, if_neg hp, List.cons_append]

/-- Lemma: `trimEnd` does nothing when the last character is not whitespace. -/
theorem trimEnd_no_ws_end (l : List Char) (c : Char) (hc : jsWs c = false) :
    trimEnd (l ++ [c]) = l ++ [c] := by
  unfold trimEnd
  rw [List.reverse_append]
  simp only [List.reverse_cons, List.reverse_nil, List.nil_append, List.singleton_append,
    List.dropWhile_cons]
  rw [if_neg (by rw [hc]; simp)]
  simp

/-- Trimming a list that ends in a non-whitespace character strips exactly
the leading whitespace. -/
theorem jsTrim_no_ws_end (l : List Char) (c : Char) (hc : jsWs c = false) :
    jsTrim (l ++ [c]) = l.dropWhile jsWs ++ [c] := by
  unfold jsTrim
  rw [dropWhile_append_singleton _ _ _ hc, trimEnd_no_ws_end _ _ hc]

/-- Lemma: `trimEnd` is a prefix of its argument, and the dropped suffix is pure
whitespace. -/
theorem trimEnd_decomp (l : List Char) : ∃ suf, l = trimEnd l ++ suf ∧ WsOnly suf := by
  refine ⟨(l.reverse.takeWhile jsWs).reverse, ?_, ?_⟩
  · unfold trimEnd
    conv_lhs => rw [← List.reverse_reverse l, ← List.takeWhile_append_dropWhile (p := jsWs)
      (l := l.reverse)]
    rw [List.reverse_append]
  · intro c hc
    rw [List.mem_reverse] at hc
    exact mem_takeWhile_sat _ _ _ hc

/-- A string is its leading whitespace, its trimmed core, and its trailing
whitespace. -/
theorem jsTrim_decomp (l : List Char) :
    ∃ w1 w2, WsOnly w1 ∧ WsOnly w2 ∧ l = w1 ++ jsTrim l ++ w2 := by
  obtain ⟨suf, hsuf, hws⟩ := trimEnd_decomp (l.dropWhile jsWs)
  refine ⟨l.takeWhile jsWs, suf, ?_, hws, ?_⟩
  · intro c hc
    exact mem_takeWhile_sat _ _ _ hc
  · conv_lhs => rw [← List.takeWhile_append_dropWhile (p := jsWs) (l := l), hsuf]
    rw [List.append_assoc]
    rfl

/-- If the trimmed string vanishes, the string was pure whitespace. -/
theorem jsTrim_eq_nil_wsOnly (l : List Char) (h : jsTrim l = []) : WsOnly l := by
  obtain ⟨w1, w2, h1, h2, hl⟩ := jsTrim_decomp l
  rw [h] at hl
  simp only [List.append_nil] at hl
  rw [hl]
  exact wsOnly_append h1 h2

/-- A non-empty trimmed string starts with a non-whitespace character. -/
theorem jsTrim_head_not_ws (l : List Char) (c : Char) (cs : List Char)
    (h : jsTrim l = c :: cs) : jsWs c = false := by
  unfold jsTrim at h
  obtain ⟨suf, hsuf, _⟩ := trimEnd_decomp (l.dropWhile jsWs)
  rw [h] at hsuf
  exact dropWhile_head_false jsWs l c (cs ++ suf) (by rw [hsuf]; rfl)

/-- Terminal punctuation is not whitespace. -/
theorem termPunct_not_ws (c : Char) (h : isTermPunct c = true) : jsWs c = false := by
  unfold isTermPunct at h
  rcases Bool.or_eq_true _ _ |>.mp h with h' | h'
  · rcases Bool.or_eq_true _ _ |>.mp h' with h'' | h''
    · rw [decide_eq_true_eq.mp h'']; decide
    · rw [decide_eq_true_eq.mp h'']; decide
  · rw [decide_eq_true_eq.mp h']; decide

/-- Structure of a successful sentence match (generalized over the scanner
accumulator): the first group extends the accumulator, the input splits as
group one, a non-empty whitespace run, and group two, and group one ends in
terminal punctuation. -/
theorem findSplitAux_some (l : List Char) :
    ∀ acc prev sent rest, findSplitAux acc prev l = some (sent, rest) →
      ∃ mid w, sent = acc ++ mid ∧ l = mid ++ w ++ rest ∧ WsOnly w ∧ w ≠ [] ∧
        ∃ s0 c, mid = s0 ++ [c] ∧ isTermPunct c = true := by
  induction l with
  | nil => intro acc prev sent rest h; cases h
  | cons c cs ih =>
      intro acc prev sent rest h
      unfold findSplitAux at h
      by_cases hcond : (isTermPunct c && prevOk prev && wsHead cs) = true
      · rw [if_pos hcond] at h
        injection h with h
        injection h with h1 h2
        refine ⟨[c], cs.takeWhile jsWs, h1.symm, ?_, ?_, ?_, [], c, rfl, ?_⟩
        · rw [← h2]
          rw [List.append_assoc, List.takeWhile_append_dropWhile]
          rfl
        · intro d hd
          exact mem_takeWhile_sat _ _ _ hd
        · rcases Bool.and_eq_true _ _ |>.mp hcond with ⟨_, hws⟩
          cases hcs : cs with
          | nil => rw [hcs] at hws; simp [wsHead] at hws
          | cons d ds =>
              rw [hcs] at hws
              unfold wsHead at hws
              rw [List.takeWhile_cons, if_pos hws]
              simp
        · rcases Bool.and_eq_true _ _ |>.mp hcond with ⟨h', _⟩
          exact Bool.and_eq_true _ _ |>.mp h' |>.1
      · rw [if_neg hcond] at h
        obtain ⟨mid, w, hsent, hsplit, hws, hwne, s0, ch, hmid, hpunct⟩ :=
          ih (acc ++ [c]) (some c) sent rest h
        refine ⟨[c] ++ mid, w, by rw [hsent, List.append_assoc], ?_, hws, hwne,
          [c] ++ s0, ch, by rw [hmid, List.append_assoc], hpunct⟩
        simp [hsplit]

/-- Structure of a successful `findSplit`. -/
theorem findSplit_some (l sent rest : List Char) (h : findSplit l = some (sent, rest)) :
    ∃ w, l = sent ++ w ++ rest ∧ WsOnly w ∧ w ≠ [] ∧
      ∃ s0 c, sent = s0 ++ [c] ∧ isTermPunct c = true := by
  obtain ⟨mid, w, hsent, hsplit, hws, hwne, s0, c, hmid, hpunct⟩ :=
    findSplitAux_some l [] none sent rest h
  simp only [List.nil_append] at hsent
  subst hsent
  exact ⟨w, hsplit, hws, hwne, s0, c, hmid, hpunct⟩

theorem wsDecomp_refl (b : List Char) : WsDecomp [] b b := ⟨[], wsOnly_nil, rfl⟩

theorem wsDecomp_prepend_ws {ss : List (List Char)} {input buf w : List Char}
    (hw : WsOnly w) (h : WsDecomp ss input buf) : WsDecomp ss (w ++ input) buf := by
  cases ss with
  | nil =>
      obtain ⟨w0, hw0, he⟩ := h
      exact ⟨w ++ w0, wsOnly_append hw hw0, by rw [he, List.append_assoc]⟩
  | cons s ss =>
      obtain ⟨w0, rest, hw0, he, hd⟩ := h
      exact ⟨w ++ w0, rest, wsOnly_append hw hw0, by rw [he]; simp [List.append_assoc], hd⟩

theorem wsDecomp_extend {ss : List (List Char)} {input buf : List Char} (t : List Char)
    (h : WsDecomp ss input buf) : WsDecomp ss (input ++ t) (buf ++ t) := by
  induction ss generalizing input with
  | nil =>
      obtain ⟨w, hw, he⟩ := h
      exact ⟨w, hw, by rw [he, List.append_assoc]⟩
  | cons s ss ih =>
      obtain ⟨w, rest, hw, he, hd⟩ := h
      exact ⟨w, rest ++ t, hw, by rw [he]; simp [List.append_assoc], ih hd⟩

theorem wsDecomp_trans {ss ts : List (List Char)} {input buf buf2 : List Char}
    (h1 : WsDecomp ss input buf) (h2 : WsDecomp ts buf buf2) :
    WsDecomp (ss ++ ts) input buf2 := by
  induction ss generalizing input with
  | nil =>
      obtain ⟨w, hw, he⟩ := h1
      rw [List.nil_append, he]
      exact wsDecomp_prepend_ws hw h2
  | cons s ss ih =>
      obtain ⟨w, rest, hw, he, hd⟩ := h1
      exact ⟨w, rest, hw, he, ih hd⟩

theorem wsDecomp_absorb {ss : List (List Char)} {input buf : List Char}
    (h : WsDecomp ss input buf) (hb : WsOnly buf) : WsDecomp ss input [] := by
  induction ss generalizing input with
  | nil =>
      obtain ⟨w, hw, he⟩ := h
      exact ⟨w ++ buf, wsOnly_append hw hb, by rw [he]; simp⟩
  | cons s ss ih =>
      obtain ⟨w, rest, hw, he, hd⟩ := h
      exact ⟨w, rest, hw, he, ih hd⟩

/-- The trailing segment of a decomposition is a suffix of the input. -/
theorem wsDecomp_suffix {ss : List (List Char)} {input buf : List Char}
    (h : WsDecomp ss input buf) : ∃ p, input = p ++ buf := by
  induction ss generalizing input with
  | nil => obtain ⟨w, _, he⟩ := h; exact ⟨w, he⟩
  | cons s ss ih =>
      obtain ⟨w, rest, _, he, hd⟩ := h
      obtain ⟨p, hp⟩ := ih hd
      exact ⟨w ++ s ++ p, by rw [he, hp]; simp [List.append_assoc]⟩

/-- The extraction loop decomposes the buffer into its extracted sentences
interleaved with whitespace, ending in the leftover buffer. -/
theorem extractAux_decomp : ∀ n b, b.length ≤ n →
    WsDecomp (extractAux n b).1 b (extractAux n b).2 := by
  intro n
  induction n with
  | zero =>
      intro b hb
      have hnil : b = [] := List.length_eq_zero.mp (Nat.le_zero.mp hb)
      subst hnil
      exact wsDecomp_refl []
  | succ n ih =>
      intro b hb
      unfold extractAux
      cases hfs : findSplit b with
      | none => exact wsDecomp_refl b
      | some pr =>
          obtain ⟨sent, rest⟩ := pr
          obtain ⟨w, hsplit, hws, hwne, s0, c, hmid, _⟩ := findSplit_some b sent rest hfs
          have hlen : rest.length ≤ n := by
            have hb2 : b.length = sent.length + (w.length + rest.length) := by
              rw [hsplit]; simp
            have hs : 1 ≤ sent.length := by
              rw [hmid]
              simp
            have hw1 : 1 ≤ w.length := List.length_pos.mpr hwne
            omega
          have hd := ih rest hlen
          obtain ⟨w1, w2, hw1o, hw2o, hsent⟩ := jsTrim_decomp sent
          dsimp only
          refine ⟨w1, w2 ++ (w ++ rest), hw1o, ?_, ?_⟩
          · rw [hsplit]
            conv_lhs => rw [hsent]
            simp [List.append_assoc]
          · rw [← List.append_assoc]
            exact wsDecomp_prepend_ws (wsOnly_append hw2o hws) hd

/-- Every sentence the extraction loop collects is non-empty and starts
with a non-whitespace character. -/
theorem extractAux_sents_ok : ∀ n b s, s ∈ (extractAux n b).1 →
    s ≠ [] ∧ ∀ c cs, s = c :: cs → jsWs c = false := by
  intro n
  induction n with
  | zero => intro b s h; cases h
  | succ n ih =>
      intro b s h
      unfold extractAux at h
      cases hfs : findSplit b with
      | none => rw [hfs] at h; cases h
      | some pr =>
          obtain ⟨sent, rest⟩ := pr
          rw [hfs] at h
          dsimp only at h
          rcases List.mem_cons.mp h with h | h
          · constructor
            · intro hnil
              obtain ⟨_, _, _, _, s0, c, hmid, hpunct⟩ := findSplit_some b sent rest hfs
              have hwsent : WsOnly sent := jsTrim_eq_nil_wsOnly sent (by rw [← h, hnil])
              have hcmem : c ∈ sent := by rw [hmid]; simp
              have := hwsent c hcmem
              rw [termPunct_not_ws c hpunct] at this
              cases this
            · intro c cs hcs
              exact jsTrim_head_not_ws sent c cs (by rw [← h, hcs])
          · exact ih rest s h

/-- Whitespace head is stable under appending on the right. -/
theorem wsHead_append (r t : List Char) (h : wsHead r = true) : wsHead (r ++ t) = true := by
  cases r with
  | nil => simp [wsHead] at h
  | cons c cs => exact h

/-- A heading-marker match survives appending text on the right. -/
theorem hashMarker_append (l t : List Char) (h : hashMarker l = true) :
    hashMarker (l ++ t) = true := by
  rcases l with _ | ⟨c1, _ | ⟨c2, _ | ⟨c3, _ | ⟨c4, r⟩⟩⟩⟩
  · simp [hashMarker] at h
  · simp [hashMarker, wsHead] at h
  · simp [hashMarker, wsHead] at h ⊢
    tauto
  · simp [hashMarker, wsHead] at h ⊢
    tauto
  · exact h

/-- A bold-marker match survives appending text on the right. -/
theorem starMarker_append (l t : List Char) (h : starMarker l = true) :
    starMarker (l ++ t) = true := by
  rcases l with _ | ⟨c1, _ | ⟨c2, r⟩⟩
  · simp [starMarker] at h
  · simp [starMarker] at h
  · exact h

/-- A list-marker match survives appending text on the right. -/
theorem dashMarker_append (l t : List Char) (h : dashMarker l = true) :
    dashMarker (l ++ t) = true := by
  rcases l with _ | ⟨c1, _ | ⟨c2, r⟩⟩
  · simp [dashMarker] at h
  · simp [dashMarker] at h
  · exact h

/-- A Markdown-marker match survives appending text on the right. -/
theorem markerHead_append (l t : List Char) (h : markerHead l = true) :
    markerHead (l ++ t) = true := by
  unfold markerHead at h ⊢
  rcases Bool.or_eq_true _ _ |>.mp h with h | h
  · rcases Bool.or_eq_true _ _ |>.mp h with h | h
    · rw [hashMarker_append _ t h]
      simp
    · rw [starMarker_append _ t h]
      simp
  · rw [dashMarker_append _ t h]
    simp

/-- A failed marker search means no match at the head and none in the tail. -/
theorem markerSearch_none_cons (c : Char) (cs : List Char)
    (h : markerSearch (c :: cs) = none) :
    markerHead (c :: cs) = false ∧ markerSearch cs = none := by
  unfold markerSearch at h
  by_cases hm : markerHead (c :: cs) = true
  · rw [if_pos hm] at h; cases h
  · rw [if_neg hm] at h
    simp only [Bool.not_eq_true] at hm
    refine ⟨hm, ?_⟩
    cases hms : markerSearch cs with
    | none => rfl
    | some i => rw [hms] at h; cases h

/-- A failed marker search means no marker anywhere. -/
theorem markerSearch_none_noMarker (l : List Char) (h : markerSearch l = none) :
    NoMarker l := by
  induction l with
  | nil =>
      intro l1 l2 he
      have h2 : l2 = [] := (List.append_eq_nil.mp he.symm).2
      rw [h2]
      rfl
  | cons c cs ih =>
      obtain ⟨hhead, htail⟩ := markerSearch_none_cons c cs h
      intro l1 l2 he
      cases l1 with
      | nil =>
          rw [List.nil_append] at he
          rw [← he]
          exact hhead
      | cons a l1 =>
          rw [List.cons_append] at he
          injection he with h1 h2
          exact ih htail l1 l2 h2

/-- A successful marker search points at an actual marker match. -/
theorem markerSearch_some_head : ∀ (l : List Char) i, markerSearch l = some i →
    markerHead (l.drop i) = true := by
  intro l
  induction l with
  | nil => intro i h; cases h
  | cons c cs ih =>
      intro i h
      unfold markerSearch at h
      by_cases hm : markerHead (c :: cs) = true
      · rw [if_pos hm] at h
        injection h with h
        subst h
        exact hm
      · rw [if_neg hm] at h
        cases hms : markerSearch cs with
        | none => rw [hms] at h; cases h
        | some j =>
            rw [hms] at h
            simp only [Option.map] at h
            injection h with h
            subst h
            exact ih j hms

/-- Lemma: `NoMarker` passes to suffixes. -/
theorem noMarker_suffix {x y : List Char} (h : NoMarker (x ++ y)) : NoMarker y := by
  intro l1 l2 he
  exact h (x ++ l1) l2 (by rw [he, List.append_assoc])

/-- If the buffer followed by any future input has no marker, the buffer is
not a Markdown start. -/
theorem noMarker_isMarkdownStart {b t : List Char} (h : NoMarker (b ++ t)) :
    isMarkdownStart b = false := by
  by_cases hm : isMarkdownStart b = true
  · exfalso
    unfold isMarkdownStart at hm
    obtain ⟨w1, w2, _, _, hb⟩ := jsTrim_decomp b
    have h2 : markerHead (jsTrim b ++ (w2 ++ t)) = true := markerHead_append _ _ hm
    have h3 := h w1 (jsTrim b ++ (w2 ++ t)) (by
      conv_lhs => rw [hb]
      simp [List.append_assoc])
    rw [h2] at h3
    cases h3
  · simp only [Bool.not_eq_true] at hm
    exact hm

/-- If the buffer followed by any future input has no marker, the marker
search on the buffer fails. -/
theorem noMarker_markerSearch {b t : List Char} (h : NoMarker (b ++ t)) :
    markerSearch b = none := by
  cases hms : markerSearch b with
  | none => rfl
  | some i =>
      exfalso
      have hhead := markerSearch_some_head b i hms
      have h2 : markerHead (b.drop i ++ t) = true := markerHead_append _ _ hhead
      have h3 := h (b.take i) (b.drop i ++ t)
        (by rw [← List.append_assoc, List.take_append_drop])
      rw [h2] at h3
      cases h3

/-- Lemma: `processSentences` emits exactly the extracted sentences that pass the
emission filter, and leaves the same buffer. -/
theorem processAux_eq_filter : ∀ n b,
    processAux n b = ((extractAux n b).1.filter emitOk, (extractAux n b).2) := by
  intro n
  induction n with
  | zero => intro b; rfl
  | succ n ih =>
      intro b
      unfold processAux extractAux
      cases hfs : findSplit b with
      | none => rfl
      | some pr =>
          obtain ⟨sent, rest⟩ := pr
          dsimp only
          rw [ih rest]
          by_cases he : emitOk (jsTrim sent) = true
          · simp [List.filter_cons, he]
          · simp [List.filter_cons, he]

/-- The ghost run decomposes the whole input into its sentences interleaved
with whitespace, ending in the final buffer. -/
theorem proseChunks_decomp : ∀ (cs : List (List Char)) (b : List Char),
    WsDecomp (proseChunks b cs).1 (b ++ concatChunks cs) (proseChunks b cs).2 := by
  intro cs
  induction cs with
  | nil =>
      intro b
      show WsDecomp [] (b ++ concatChunks []) b
      rw [show concatChunks [] = [] from rfl, List.append_nil]
      exact wsDecomp_refl b
  | cons c cs ih =>
      intro b
      have h1 : WsDecomp (extractSentences (b ++ c)).1 (b ++ c) (extractSentences (b ++ c)).2 :=
        extractAux_decomp (b ++ c).length (b ++ c) (le_refl _)
      have h2 := wsDecomp_extend (concatChunks cs) h1
      have h3 := ih (extractSentences (b ++ c)).2
      have h4 := wsDecomp_trans h2 h3
      show WsDecomp ((extractSentences (b ++ c)).1 ++ _) (b ++ (c ++ concatChunks cs)) _
      rw [← List.append_assoc]
      exact h4

/-- Every sentence of the ghost run is non-empty. -/
theorem proseChunks_sents_ok : ∀ (cs : List (List Char)) (b s : List Char),
    s ∈ (proseChunks b cs).1 → s ≠ [] := by
  intro cs
  induction cs with
  | nil => intro b s h; cases h
  | cons c cs ih =>
      intro b s h
      unfold proseChunks at h
      dsimp only at h
      rcases List.mem_append.mp h with h | h
      · exact (extractAux_sents_ok _ _ s h).1
      · exact ih _ s h

/-- In prose mode with no marker in the buffer or in any future input, a
whole sequence of `add` calls follows the prose path: the state stays out
of Markdown mode and accumulates the buffer of the ghost run, and the
emissions are exactly the sentences of the ghost run passed through the
emission filter. -/
theorem applyOps_adds_prose : ∀ (cs : List (List Char)) (b : List Char),
    NoMarker (b ++ concatChunks cs) →
    applyOps ⟨b, false⟩ (cs.map SBOp.add)
      = (⟨(proseChunks b cs).2, false⟩, (proseChunks b cs).1.filter emitOk) := by
  intro cs
  induction cs with
  | nil => intro b h; rfl
  | cons c cs ih =>
      intro b h
      have hnm : NoMarker ((b ++ c) ++ concatChunks cs) := by
        have he : b ++ concatChunks (c :: cs) = (b ++ c) ++ concatChunks cs := by
          show b ++ (c ++ concatChunks cs) = _
          rw [List.append_assoc]
        rw [← he]
        exact h
      have hmdstart : isMarkdownStart (b ++ c) = false := noMarker_isMarkdownStart hnm
      have hsearch : markerSearch (b ++ c) = none := noMarker_markerSearch hnm
      have hadd : sbAdd ⟨b, false⟩ c
          = (⟨(processSentences (b ++ c)).2, false⟩, (processSentences (b ++ c)).1) := by
        unfold sbAdd
        have hbuf : (⟨b, false⟩ : SB).buffer ++ c = b ++ c := rfl
        rw [hbuf, hmdstart]
        rw [if_neg (by simp)]
        unfold processBuffer
        have hsearch2 : markerSearch ((⟨b ++ c, false || false⟩ : SB).buffer) = none := hsearch
        simp only [hsearch2]
        rfl
      have hps : processSentences (b ++ c) =
          ((extractSentences (b ++ c)).1.filter emitOk, (extractSentences (b ++ c)).2) :=
        processAux_eq_filter _ _
      have hb1 : ∃ p, b ++ c = p ++ (processSentences (b ++ c)).2 := by
        have hd := extractAux_decomp (b ++ c).length (b ++ c) (le_refl _)
        obtain ⟨p, hp⟩ := wsDecomp_suffix hd
        rw [hps]
        exact ⟨p, hp⟩
      obtain ⟨p, hp⟩ := hb1
      have hnm2 : NoMarker ((processSentences (b ++ c)).2 ++ concatChunks cs) := by
        apply noMarker_suffix (x := p)
        rw [← List.append_assoc, ← hp]
        exact hnm
      show ((applyOps (applyOp ⟨b, false⟩ (SBOp.add c)).1 (cs.map SBOp.add)).1,
            (applyOp ⟨b, false⟩ (SBOp.add c)).2 ++
              (applyOps (applyOp ⟨b, false⟩ (SBOp.add c)).1 (cs.map SBOp.add)).2) = _
      have happ : applyOp ⟨b, false⟩ (SBOp.add c) = sbAdd ⟨b, false⟩ c := rfl
      rw [happ, hadd]
      dsimp only
      rw [ih _ hnm2]
      dsimp only
      rw [hps]
      dsimp only
      simp only [proseChunks]
      rw [List.filter_append]

/-- Splitting a run of buffer operations. -/
theorem applyOps_append (sb : SB) (ops1 ops2 : List SBOp) :
    applyOps sb (ops1 ++ ops2)
      = ((applyOps (applyOps sb ops1).1 ops2).1,
         (applyOps sb ops1).2 ++ (applyOps (applyOps sb ops1).1 ops2).2) := by
  induction ops1 generalizing sb with
  | nil => rfl
  | cons op ops ih =>
      show ((applyOps (applyOp sb op).1 (ops ++ ops2)).1,
            (applyOp sb op).2 ++ (applyOps (applyOp sb op).1 (ops ++ ops2)).2) = _
      rw [ih (applyOp sb op).1]
      show _ = ((applyOps (applyOps (applyOp sb op).1 ops).1 ops2).1,
        ((applyOp sb op).2 ++ (applyOps (applyOp sb op).1 ops).2) ++
          (applyOps (applyOps (applyOp sb op).1 ops).1 ops2).2)
      rw [List.append_assoc]

/-- On non-empty sentences the emission filter is exactly the transition
filter. -/
theorem filter_emitOk_eq (l : List (List Char)) (h : ∀ s ∈ l, s ≠ []) :
    l.filter emitOk = l.filter (fun s => !(isTransitionOnlyText s)) := by
  induction l with
  | nil => rfl
  | cons a l ih =>
      rw [List.filter_cons, List.filter_cons, ih (fun s hs => h s (List.mem_cons_of_mem _ hs))]
      have ha : a ≠ [] := h a (List.mem_cons_self _ _)
      have he : emitOk a = !(isTransitionOnlyText a) := by
        unfold emitOk
        simp [ha]
      rw [he]

/-- C1 counterexample: with the single chunk "Hi there. Bye" (which holds
no Markdown marker and no transition sentence), the sentence pattern drops
the whitespace that separated "Hi there."  from "Bye", so concatenating the
emitted sentences and the flush remainder yields "Hi there.Bye", not the
original input. -/
theorem c1_counterexample :
    (applyOps sbInit [SBOp.add ("Hi there. Bye").data, SBOp.flush]).2
        = [("Hi there.").data, ("Bye").data] ∧
    (∀ s ∈ (applyOps sbInit [SBOp.add ("Hi there. Bye").data, SBOp.flush]).2,
        isTransitionOnlyText s = false) ∧
    concatChunks (applyOps sbInit [SBOp.add ("Hi there. Bye").data, SBOp.flush]).2
      ≠ ("Hi there. Bye").data := by
  refine ⟨by decide, ?_, by decide⟩
  intro s hs
  rcases List.mem_cons.mp hs with h | h
  · rw [h]; decide
  · rcases List.mem_cons.mp h with h | h
    · rw [h]; decide
    · cases h

/-- C1 (amended): for every chunk sequence whose concatenation has no
Markdown marker, the concatenated input decomposes exactly into the
extracted sentences (in order) and the trimmed flush remainder, interleaved
with pure whitespace — reconstruction up to the whitespace the sentence
pattern consumes and the trimming of each sentence — and the emissions of
the full run (`add` calls then `flush`) are exactly those sentences minus
the ones matched by `isTransitionOnlyText`. -/
theorem c1_amended (cs : List (List Char))
    (h : markerSearch (concatChunks cs) = none) :
    WsDecomp (proseSentsAll cs) (concatChunks cs) [] ∧
    (applyOps sbInit (cs.map SBOp.add ++ [SBOp.flush])).2
      = (proseSentsAll cs).filter (fun s => !(isTransitionOnlyText s)) := by
  have hnm : NoMarker (concatChunks cs) := markerSearch_none_noMarker _ h
  have hnm0 : NoMarker ([] ++ concatChunks cs) := by rw [List.nil_append]; exact hnm
  have hrun := applyOps_adds_prose cs [] hnm0
  have hdec : WsDecomp (proseChunks [] cs).1 (concatChunks cs) (proseChunks [] cs).2 := by
    have h0 := proseChunks_decomp cs []
    rw [List.nil_append] at h0
    exact h0
  have hsplit := applyOps_append (⟨[], false⟩ : SB) (cs.map SBOp.add) [SBOp.flush]
  rw [hrun] at hsplit
  rw [show sbInit = (⟨[], false⟩ : SB) from rfl]
  have hflush : applyOps ⟨(proseChunks [] cs).2, false⟩ [SBOp.flush]
      = ((sbFlush ⟨(proseChunks [] cs).2, false⟩).1,
         (sbFlush ⟨(proseChunks [] cs).2, false⟩).2 ++ []) := rfl
  rw [hflush] at hsplit
  have hok : ∀ s ∈ (proseChunks [] cs).1, s ≠ [] := fun s hs => proseChunks_sents_ok cs [] s hs
  by_cases hr : jsTrim (proseChunks [] cs).2 = []
  · have hfl : sbFlush ⟨(proseChunks [] cs).2, false⟩ = (⟨(proseChunks [] cs).2, false⟩, []) := by
      unfold sbFlush
      rw [if_pos hr]
    have hsa : proseSentsAll cs = (proseChunks [] cs).1 := by
      unfold proseSentsAll
      rw [if_pos hr, List.append_nil]
    constructor
    · rw [hsa]
      exact wsDecomp_absorb hdec (jsTrim_eq_nil_wsOnly _ hr)
    · rw [hsplit, hfl]
      dsimp only
      rw [List.append_nil, List.append_nil, hsa]
      exact filter_emitOk_eq _ hok
  · have hfl : sbFlush ⟨(proseChunks [] cs).2, false⟩
        = ((⟨[], false⟩ : SB),
           if isTransitionOnlyText (jsTrim (proseChunks [] cs).2) then []
           else [jsTrim (proseChunks [] cs).2]) := by
      unfold sbFlush
      dsimp only
      rw [if_neg hr, if_neg (by simp)]
    have hsa : proseSentsAll cs
        = (proseChunks [] cs).1 ++ [jsTrim (proseChunks [] cs).2] := by
      unfold proseSentsAll
      rw [if_neg hr]
    constructor
    · rw [hsa]
      apply wsDecomp_trans hdec
      obtain ⟨w1, w2, hw1, hw2, hb⟩ := jsTrim_decomp (proseChunks [] cs).2
      exact ⟨w1, w2, hw1, hb, w2, hw2, by rw [List.append_nil]⟩
    · rw [hsplit, hfl]
      dsimp only
      simp only [List.append_nil]
      rw [hsa, List.filter_append]
      rw [filter_emitOk_eq _ hok]
      have hone : List.filter (fun s => !(isTransitionOnlyText s)) [jsTrim (proseChunks [] cs).2]
          = (if isTransitionOnlyText (jsTrim (proseChunks [] cs).2) then []
             else [jsTrim (proseChunks [] cs).2]) := by
        by_cases ht : isTransitionOnlyText (jsTrim (proseChunks [] cs).2) = true
        · simp [List.filter_cons, ht]
        · simp only [Bool.not_eq_true] at ht
          simp [List.filter_cons, ht]
      rw [hone]

/-- Witness for C1 (amended) at chunks "Hi th", "ere. By", "e": the
marker-freedom hypothesis holds and the theorem applies. -/
theorem c1_amended_witness :
    markerSearch (concatChunks [("Hi th").data, ("ere. By").data, ("e").data]) = none ∧
    (WsDecomp (proseSentsAll [("Hi th").data, ("ere. By").data, ("e").data])
        (concatChunks [("Hi th").data, ("ere. By").data, ("e").data]) [] ∧
     (applyOps sbInit (([("Hi th").data, ("ere. By").data, ("e").data]).map SBOp.add
          ++ [SBOp.flush])).2
       = (proseSentsAll [("Hi th").data, ("ere. By").data, ("e").data]).filter
           (fun s => !(isTransitionOnlyText s))) :=
  ⟨by decide, c1_amended [("Hi th").data, ("ere. By").data, ("e").data] (by decide)⟩

/-- Rewriting the target message commutes with looking it up, for updates
that keep the id. -/
theorem getMsg_updMessages (ms : List CMessage) (mid : Nat) (f : CMessage → CMessage)
    (hf : ∀ m, (f m).id = m.id) (m : CMessage)
    (h : ms.find? (fun m2 => m2.id == mid) = some m) :
    (updMessages ms mid f).find? (fun m2 => m2.id == mid) = some (f m) := by
  induction ms with
  | nil => cases h
  | cons a ms ih =>
      unfold updMessages
      rw [List.map_cons, List.find?_cons]
      rw [List.find?_cons] at h
      by_cases ha : (a.id == mid) = true
      · rw [if_pos ha]
        have hfa : ((f a).id == mid) = true := by
          rw [hf a]
          exact ha
        rw [ha] at h
        injection h with h
        subst h
        simp only [hfa]
      · rw [if_neg ha]
        have hna : (a.id == mid) = false := by
          cases hh : (a.id == mid)
          · rfl
          · exact absurd hh ha
        rw [hna] at h
        simp only [hna]
        exact ih h

/-- C6: feeding `assistant_text` events "Hello" then " world." to the
consumer yields message content "Hello world." by pure concatenation, and
a following `complete` event clears the streaming flag without touching
the content. -/
theorem c6_client_merge :
    getMsg (handleStreamEvents (cInit 1 2 ("q").data)
        [SEvent.assistantText ("Hello").data, SEvent.assistantText (" world.").data]) 2
      = some ⟨2, Role.assistant, ("Hello world.").data, true⟩ ∧
    getMsg (handleStreamEvents (cInit 1 2 ("q").data)
        [SEvent.assistantText ("Hello").data, SEvent.assistantText (" world.").data,
         SEvent.completeEv]) 2
      = some ⟨2, Role.assistant, ("Hello world.").data, false⟩ := by decide

/-- C7 counterexample: after a `complete` event the consumer keeps
accepting content — a later `assistant_text` event appends to the same
message and even turns its streaming flag back on: processing "A",
complete, "B" leaves content "AB", not "A". -/
theorem c7_counterexample :
    getMsg (handleStreamEvents (cInit 1 2 ("q").data)
        [SEvent.assistantText ("A").data, SEvent.completeEv, SEvent.assistantText ("B").data]) 2
      = some ⟨2, Role.assistant, ("AB").data, true⟩ := by decide

/-- C7 amended: `complete` only clears the streaming flag; it does not
stop acceptance.  As long as `currentMessageIdRef` still holds the message
id (it is cleared only when `handleSubmit` finishes), a subsequent
non-empty `assistant_text` event appends its content to the accumulator
and overwrites the message with it, setting the streaming flag again. -/
theorem c7_amended (st : CState) (mid : Nat) (c : List Char) (m : CMessage)
    (h1 : st.currentId = some mid) (h2 : c ≠ []) (h3 : getMsg st mid = some m) :
    getMsg (handleStreamEvent (handleStreamEvent st SEvent.completeEv)
        (SEvent.assistantText c)) mid
      = some { m with content := st.textBuffer ++ c, isStreaming := true } := by
  have hst1 : handleStreamEvent st SEvent.completeEv
      = { st with
          messages := updMessages st.messages mid (fun m => { m with isStreaming := false }),
          isLoading := false } := by
    unfold handleStreamEvent
    rw [h1]
  rw [hst1]
  unfold handleStreamEvent
  dsimp only
  rw [h1]
  dsimp only
  rw [if_neg h2]
  unfold getMsg
  dsimp only
  have hfind := getMsg_updMessages st.messages mid
    (fun m => { m with isStreaming := false }) (fun m => rfl) m h3
  have hfind2 := getMsg_updMessages
    (updMessages st.messages mid (fun m => { m with isStreaming := false})) mid
    (fun m => { m with content := st.textBuffer ++ c, isStreaming := true })
    (fun m => rfl) _ hfind
  exact hfind2

/-- Witness for C7 (amended) at a concrete state: the fresh chat state,
message id 2, chunk "B". -/
theorem c7_amended_witness :
    ((cInit 1 2 ("q").data).currentId = some 2 ∧ ("B").data ≠ [] ∧
      getMsg (cInit 1 2 ("q").data) 2 = some ⟨2, Role.assistant, [], true⟩) ∧
    getMsg (handleStreamEvent (handleStreamEvent (cInit 1 2 ("q").data) SEvent.completeEv)
        (SEvent.assistantText ("B").data)) 2
      = some ⟨2, Role.assistant, (cInit 1 2 ("q").data).textBuffer ++ ("B").data, true⟩ :=
  ⟨⟨rfl, by decide, by decide⟩,
   c7_amended (cInit 1 2 ("q").data) 2 ("B").data ⟨2, Role.assistant, [], true⟩
     rfl (by decide) (by decide)⟩

/-- C8: `extractToolDetail` is total (modelled exceptions are caught), and
returns the empty string whenever the input fails to parse as JSON, and
whenever the parsed input holds no relevant field: no (truthy) `query`
needed by a search tool and no (truthy) `url` needed by a scrape/crawl
tool. -/
theorem c8_extract_tool_detail_safe
    (jparse : List Char → Option JsValue) (uparse : List Char → Option (List Char))
    (toolName input : List Char) :
    (jparse input = none → extractToolDetail jparse uparse toolName input = []) ∧
    (∀ parsed, jparse input = some parsed →
      (includesSeg ("search").data toolName = true → getField parsed ("query").data = none) →
      ((includesSeg ("scrape").data toolName = true ∨ includesSeg ("crawl").data toolName = true) →
        getField parsed ("url").data = none) →
      extractToolDetail jparse uparse toolName input = []) := by
  unfold extractToolDetail
  by_cases hi : input = []
  · rw [if_pos hi]
    exact ⟨fun _ => rfl, fun _ _ _ _ => rfl⟩
  · rw [if_neg hi]
    constructor
    · intro hp
      rw [hp]
    · intro parsed hp hq hu
      rw [hp]
      dsimp only
      have hq2 : (includesSeg ("search").data toolName
          && truthyOpt (getField parsed ("query").data)) = false := by
        by_cases hs : includesSeg ("search").data toolName = true
        · rw [hq hs]
          simp [truthyOpt]
        · have hs2 : includesSeg ("search").data toolName = false := by
            cases h2 : includesSeg ("search").data toolName
            · rfl
            · exact absurd h2 hs
          rw [hs2]
          rfl
      have hu2 : ((includesSeg ("scrape").data toolName || includesSeg ("crawl").data toolName)
          && truthyOpt (getField parsed ("url").data)) = false := by
        by_cases hsc : (includesSeg ("scrape").data toolName
            || includesSeg ("crawl").data toolName) = true
        · rw [hu (Bool.or_eq_true _ _ |>.mp hsc)]
          simp [truthyOpt]
        · have hsc2 : (includesSeg ("scrape").data toolName
              || includesSeg ("crawl").data toolName) = false := by
            cases h2 : (includesSeg ("scrape").data toolName
                || includesSeg ("crawl").data toolName)
            · rfl
            · exact absurd h2 hsc
          rw [hsc2]
          rfl
      rw [hq2]
      rw [if_neg (by simp)]
      rw [hu2]
      rw [if_neg (by simp)]

/-- Witness for C8: a parser that always fails, and a parser returning an
empty object, both at concrete tool names and inputs. -/
theorem c8_extract_tool_detail_safe_witness :
    ((fun _ : List Char => (none : Option JsValue)) (("in").data) = none ∧
      extractToolDetail (fun _ => none) (fun _ => none) ("mcp__x__search").data ("in").data
        = []) ∧
    extractToolDetail (fun _ => some (JsValue.vObj [])) (fun _ => none)
        ("mcp__x__search").data ("in").data = [] :=
  ⟨⟨rfl,
    (c8_extract_tool_detail_safe (fun _ => none) (fun _ => none)
      ("mcp__x__search").data ("in").data).1 rfl⟩,
   (c8_extract_tool_detail_safe (fun _ => some (JsValue.vObj [])) (fun _ => none)
      ("mcp__x__search").data ("in").data).2 (JsValue.vObj []) rfl
      (fun _ => rfl) (fun _ => rfl)⟩

/-- C9 counterexample: a JSON body whose `personName` is the number 5 (a
truthy non-string) yields a 500 response — `isResearchQuery` calls
`.trim()` on it, the TypeError reaches the outer catch — not the claimed
400. -/
theorem c9_counterexample :
    handlerOutcome (some (JsValue.vObj [(("personName").data, JsValue.vNum 5)]))
      = HResp.jsonResp 500 ∧
    HResp.jsonResp 500 ≠ HResp.jsonResp 400 := ⟨rfl, by decide⟩

/-- On every body other than JSON `null`, the destructuring succeeds and
the handler proceeds by the truthiness and type of the `personName`
property. -/
theorem handlerOutcome_not_null (b : JsValue) (hb : b ≠ JsValue.vNull) :
    handlerOutcome (some b)
      = (match getField b ("personName").data with
         | none => HResp.jsonResp 400
         | some v =>
             if truthy v = false then HResp.jsonResp 400
             else
               match v with
               | JsValue.vStr s => HResp.streamResp s
               | _ => HResp.jsonResp 500) := by
  cases b with
  | vNull => exact absurd rfl hb
  | vBool b2 => rfl
  | vNum n => rfl
  | vStr s => rfl
  | vArr xs => rfl
  | vObj fs => rfl

/-- C9 amended: a JSON `null` body yields a 500 (destructuring `null`
throws, and the outer catch answers), like a body that fails to parse; on
any other body, a missing or falsy `personName` yields an immediate 400; a
truthy non-string `personName` yields an immediate 500 via the outer
catch; only a truthy (non-empty) string reaches the streaming response.
In all the error cases the outcome is a plain JSON response, so no stream
event is ever emitted. -/
theorem c9_amended (b : JsValue) :
    (handlerOutcome (some JsValue.vNull) = HResp.jsonResp 500) ∧
    (b ≠ JsValue.vNull → getField b ("personName").data = none →
      handlerOutcome (some b) = HResp.jsonResp 400) ∧
    (∀ v, getField b ("personName").data = some v → truthy v = false →
      handlerOutcome (some b) = HResp.jsonResp 400) ∧
    (∀ v, getField b ("personName").data = some v → truthy v = true →
      (∀ s, v ≠ JsValue.vStr s) → handlerOutcome (some b) = HResp.jsonResp 500) ∧
    (∀ s, getField b ("personName").data = some (JsValue.vStr s) → s ≠ [] →
      handlerOutcome (some b) = HResp.streamResp s) := by
  have hnn : ∀ v : JsValue, getField b ("personName").data = some v → b ≠ JsValue.vNull := by
    intro v h he
    subst he
    simp [getField] at h
  refine ⟨rfl, ?_, ?_, ?_, ?_⟩
  · intro hb h
    rw [handlerOutcome_not_null b hb, h]
  · intro v h hf
    rw [handlerOutcome_not_null b (hnn v h), h]
    dsimp only
    rw [hf]
    rfl
  · intro v h ht hns
    rw [handlerOutcome_not_null b (hnn v h), h]
    dsimp only
    rw [ht]
    rw [if_neg (by simp)]
    cases v with
    | vStr s => exact absurd rfl (hns s)
    | vNull => rfl
    | vBool b2 => rfl
    | vNum n => rfl
    | vArr xs => rfl
    | vObj fs => rfl
  · intro s h hs
    rw [handlerOutcome_not_null b (hnn _ h), h]
    dsimp only
    rw [show truthy (JsValue.vStr s) = true by simp [truthy, hs]]
    rw [if_neg (by simp)]

/-- Witness for C9 (amended), covering all five cases at concrete
bodies. -/
theorem c9_amended_witness :
    (handlerOutcome (some JsValue.vNull) = HResp.jsonResp 500) ∧
    ((JsValue.vObj [] ≠ JsValue.vNull ∧
        getField (JsValue.vObj []) ("personName").data = none) ∧
      handlerOutcome (some (JsValue.vObj [])) = HResp.jsonResp 400) ∧
    (handlerOutcome (some (JsValue.vObj [(("personName").data, JsValue.vStr [])]))
        = HResp.jsonResp 400) ∧
    (handlerOutcome (some (JsValue.vObj [(("personName").data, JsValue.vBool true)]))
        = HResp.jsonResp 500) ∧
    (handlerOutcome (some (JsValue.vObj [(("personName").data, JsValue.vStr ("Jane").data)]))
        = HResp.streamResp ("Jane").data) :=
  ⟨(c9_amended (JsValue.vObj [])).1,
   ⟨⟨fun h => JsValue.noConfusion h, rfl⟩,
    (c9_amended (JsValue.vObj [])).2.1 (fun h => JsValue.noConfusion h) rfl⟩,
   (c9_amended (JsValue.vObj [(("personName").data, JsValue.vStr [])])).2.2.1
     (JsValue.vStr []) rfl rfl,
   (c9_amended (JsValue.vObj [(("personName").data, JsValue.vBool true)])).2.2.2.1
     (JsValue.vBool true) rfl rfl (fun s h => JsValue.noConfusion h),
   (c9_amended (JsValue.vObj [(("personName").data, JsValue.vStr ("Jane").data)])).2.2.2.2
     ("Jane").data rfl (by decide)⟩

theorem countTerminal_append (a b : List OutEvent) :
    countTerminal (a ++ b) = countTerminal a + countTerminal b := by
  unfold countTerminal
  rw [List.filter_append, List.length_append]

theorem countTerminal_map_text (l : List (List Char)) :
    countTerminal (l.map OutEvent.assistantText) = 0 := by
  induction l with
  | nil => rfl
  | cons a l ih =>
      rw [List.map_cons]
      unfold countTerminal at *
      rw [List.filter_cons]
      rw [if_neg (by simp [isTerminal])]
      exact ih

/-- Each loop iteration emits a terminal event exactly for a `completed`
upstream event. -/
theorem stepEvent_terminal (jparse : List Char → Option JsValue)
    (uparse : List Char → Option (List Char)) (st : LoopState) (e : UpEvent) :
    countTerminal (stepEvent jparse uparse st e).2 = countCompleted [e] := by
  cases e with
  | textEv c =>
      simp only [stepEvent]
      by_cases hc : c = []
      · rw [if_pos hc]; rfl
      · rw [if_neg hc]
        exact countTerminal_map_text _
  | toolUse id name =>
      simp only [stepEvent]
      by_cases h : id ≠ [] ∧ name ≠ []
      · rw [if_pos h]; rfl
      · rw [if_neg h]; rfl
  | toolUseInput id piece =>
      simp only [stepEvent]
      by_cases h : id ≠ [] ∧ piece ≠ []
      · rw [if_pos h]; rfl
      · rw [if_neg h]; rfl
  | toolUseApproved id name =>
      simp only [stepEvent]
      by_cases h : id ≠ [] ∧ name ≠ []
      · rw [if_pos h]; rfl
      · rw [if_neg h]; rfl
  | toolUseResult id =>
      simp only [stepEvent]
      by_cases h : id ≠ []
      · rw [if_pos h]; rfl
      · rw [if_neg h]; rfl
  | toolUseError id msg =>
      simp only [stepEvent]
      by_cases h : id ≠ []
      · rw [if_pos h]; rfl
      · rw [if_neg h]; rfl
  | completed =>
      simp only [stepEvent]
      rw [countTerminal_append, countTerminal_map_text]
      rfl
  | otherEv => rfl

/-- The loop emits exactly one terminal event per upstream `completed`
event. -/
theorem runLoop_terminal (jparse : List Char → Option JsValue)
    (uparse : List Char → Option (List Char)) (evs : List UpEvent) :
    ∀ st, countTerminal (runLoop jparse uparse st evs).2 = countCompleted evs := by
  induction evs with
  | nil => intro st; rfl
  | cons e es ih =>
      intro st
      show countTerminal ((stepEvent jparse uparse st e).2 ++ _) = _
      rw [countTerminal_append, stepEvent_terminal, ih]
      show countCompleted [e] + countCompleted es = countCompleted (e :: es)
      unfold countCompleted
      rw [List.filter_cons, List.filter_cons, List.filter_nil]
      by_cases h : isCompletedEv e = true
      · rw [if_pos h, if_pos h]
        simp [Nat.add_comm]
      · rw [if_neg h, if_neg h]
        simp

/-- C3 counterexample: an upstream sequence that ends without a
`completed` event yields zero terminal events before the close (never
neither is violated), and a sequence whose iteration throws right after a
processed `completed` event yields two (one `complete`, then one `error`;
never both is violated). -/
theorem c3_counterexample :
    countTerminal (runStream (fun _ => none) (fun _ => none) [] none) = 0 ∧
    countTerminal (runStream (fun _ => none) (fun _ => none) [UpEvent.completed]
        (some (1, ("boom").data))) = 2 := by
  constructor
  · rfl
  · rfl

/-- C3 amended: the number of terminal events on the outbound stream is
exactly the number of `completed` events the loop processed, plus one
`error` event when iteration throws.  In particular the stream ends with
exactly one terminal event only when the upstream sequence holds exactly
one `completed` event and no exception occurs, or holds none and the
iteration throws. -/
theorem c3_amended (jparse : List Char → Option JsValue)
    (uparse : List Char → Option (List Char)) (evs : List UpEvent)
    (exc : Option (Nat × List Char)) :
    countTerminal (runStream jparse uparse evs exc)
      = countCompleted (match exc with | none => evs | some (k, _) => evs.take k)
        + (match exc with | none => 0 | some _ => 1) := by
  cases exc with
  | none =>
      unfold runStream
      rw [countTerminal_append, countTerminal_map_text, runLoop_terminal]
  | some pr =>
      obtain ⟨k, msg⟩ := pr
      unfold runStream
      rw [countTerminal_append, countTerminal_append, countTerminal_map_text,
        runLoop_terminal]
      rfl

end Zypher
